import Mathlib

/-!
Shallow embedding of `skills/de-AI-writing/tools/style-lint.ps1`, a stylistic
linter for Chinese prose.  Text is modelled as `List Char`; the script's
regex-based counting, paragraph segmentation, line splitting, colon-exception
logic, verdict aggregation and report rendering are translated function by
function.  All definitions are executable.
-/

namespace StyleLint

/-- Whitespace predicate modelling .NET `Char.IsWhiteSpace` / regex `\s`
(ASCII whitespace plus NEL, NBSP, LINE/PARA separator, ideographic space). -/
def isWs (c : Char) : Bool :=
  c == ' ' || c == '\t' || c == '\n' || c == Char.ofNat 13 ||
  c == Char.ofNat 11 || c == Char.ofNat 12 || c == Char.ofNat 0x85 ||
  c == Char.ofNat 0xA0 || c == Char.ofNat 0x2028 || c == Char.ofNat 0x2029 ||
  c == Char.ofNat 0x3000

/-- Leading-whitespace removal (left half of .NET `String.Trim()`). -/
def trimL (cs : List Char) : List Char := cs.dropWhile isWs

/-- Trailing-whitespace removal (right half of .NET `String.Trim()`). -/
def trimEnd (cs : List Char) : List Char := (cs.reverse.dropWhile isWs).reverse

/-- .NET `String.Trim()`: drop leading and trailing whitespace. -/
def trim (cs : List Char) : List Char := trimEnd (trimL cs)

/-- Shorthand turning a string literal into the character list it denotes. -/
def str (s : String) : List Char := s.data

/-- Consume the maximal run of line-break tokens (`\n` or `\r\n`, the regex
`(\r?\n)` repeated) at the head of the input.  Returns
(number of tokens, number of characters consumed, remaining input). -/
def nlRun : List Char → Nat × Nat × List Char
  | '\n' :: rest =>
      let r := nlRun rest
      (r.1 + 1, r.2.1 + 1, r.2.2)
  | '\r' :: '\n' :: rest =>
      let r := nlRun rest
      (r.1 + 1, r.2.1 + 2, r.2.2)
  | cs => (0, 0, cs)

/-- The scanner behind PowerShell's `-split "(\r?\n){2,}"`: cut the text at
every maximal run of two or more consecutive line-break tokens; a run of
exactly one token stays inside the current chunk.  `acc` is the current
chunk, reversed.  The explicit fuel (always instantiated with the input
length, which bounds the number of steps) keeps the recursion structural. -/
def paraScanF : Nat → List Char → List Char → List (List Char)
  | _, [], acc => [acc.reverse]
  | 0, _ :: _, acc => [acc.reverse]
  | fuel + 1, c :: rest, acc =>
      if 2 ≤ (nlRun (c :: rest)).1 then
        acc.reverse :: paraScanF fuel (nlRun (c :: rest)).2.2 []
      else if (nlRun (c :: rest)).1 = 1 then
        paraScanF fuel (nlRun (c :: rest)).2.2
          (((c :: rest).take (nlRun (c :: rest)).2.1).reverse ++ acc)
      else
        paraScanF fuel rest (c :: acc)

def paraScan (cs : List Char) (acc : List Char) : List (List Char) :=
  paraScanF cs.length cs acc

/-- `$text.Trim() -split "(\r?\n){2,}"` (the captured-group entries the
PowerShell operator inserts are whitespace-only and are removed by the
`Where-Object` filter, so they are not produced here). -/
def splitParas (cs : List Char) : List (List Char) := paraScan cs []

/-- `$paragraphs`: chunks whose trimmed length is positive (the
`$_ -notmatch "^\r?\n+$"` clause only rejects whitespace-only chunks and is
subsumed by the trimmed-length test). -/
def paragraphs (t : List Char) : List (List Char) :=
  (splitParas (trim t)).filter (fun p => 0 < (trim p).length)

/-- `$paragraphCount`. -/
def paragraphCount (t : List Char) : Nat := (paragraphs t).length

/-- Does a run of two or more line-break tokens start at some position
(i.e. would `(\r?\n){2,}` match)?  Used to state that the chunks produced
by the paragraph scanner contain no paragraph break. -/
def hasBreak : List Char → Bool
  | [] => false
  | c :: rest => decide (2 ≤ (nlRun (c :: rest)).1) || hasBreak rest

/-- Join paragraphs back together with a double line break. -/
def joinParas : List (List Char) → List Char
  | [] => []
  | [q] => q
  | q :: rest => q ++ '\n' :: '\n' :: joinParas rest

/-- `$shortParagraphs`. -/
def shortParagraphs (t : List Char) : List (List Char) :=
  (paragraphs t).filter (fun p => (trim p).length < 100 && 0 < (trim p).length)

/-- `$shortParagraphCount`. -/
def shortParagraphCount (t : List Char) : Nat := (shortParagraphs t).length

/-- `$totalParaChars`. -/
def totalParaChars (t : List Char) : Nat :=
  ((paragraphs t).map (fun p => (trim p).length)).sum

/-- `[math]::Round(t / c)` for naturals with `c > 0`: round to nearest,
ties to even (banker's rounding, the .NET default). -/
def roundHalfEven (t c : Nat) : Nat :=
  if 2 * (t % c) < c then t / c
  else if c < 2 * (t % c) then t / c + 1
  else if t / c % 2 = 0 then t / c else t / c + 1

/-- `$avgParaLen`. -/
def avgParaLen (t : List Char) : Nat :=
  if 0 < paragraphCount t then roundHalfEven (totalParaChars t) (paragraphCount t)
  else 0

/-- Drop a single leading line feed (the `\n` of a `\r\n` pair). -/
def dropLf : List Char → List Char
  | '\n' :: rs => rs
  | cs => cs

/-- One step of line splitting: the first line (stripped of its terminator)
and the rest.  `\n`, `\r\n` and lone `\r` all terminate a line, as in the
.NET `ReadLine` used by `Get-Content` / `Select-String`. -/
def takeLine : List Char → List Char × List Char
  | [] => ([], [])
  | c :: rest =>
      if c = '\n' then ([], rest)
      else if c = Char.ofNat 13 then ([], dropLf rest)
      else (c :: (takeLine rest).1, (takeLine rest).2)

/-- Fuel-based worker for `splitLines` (fuel = input length suffices, since
`takeLine` strictly shrinks a nonempty input). -/
def splitLinesF : Nat → List Char → List (List Char)
  | _, [] => []
  | 0, _ :: _ => []
  | fuel + 1, c :: rest =>
      (takeLine (c :: rest)).1 :: splitLinesF fuel (takeLine (c :: rest)).2

/-- `Get-Content`: the file's lines, without terminators; a trailing
terminator does not produce a final empty line; an empty file has no lines. -/
def splitLines (cs : List Char) : List (List Char) := splitLinesF cs.length cs

/-- Lines paired with their 1-based line numbers (`Select-String` records). -/
def numberFrom : Nat → List (List Char) → List (Nat × List Char)
  | _, [] => []
  | k, l :: rest => (k, l) :: numberFrom (k + 1) rest

/-- The document's numbered lines. -/
def lineRecords (t : List Char) : List (Nat × List Char) :=
  numberFrom 1 (splitLines t)

/-- Is the first list a prefix of the second? -/
def startsWithL : List Char → List Char → Bool
  | [], _ => true
  | _ :: _, [] => false
  | a :: as, c :: cs => a == c && startsWithL as cs

/-- First alternative (in order) that is a prefix of the input; returns its
length.  Mirrors .NET regex alternation preference at a fixed position. -/
def prefMatch (alts : List (List Char)) (cs : List Char) : Option Nat :=
  match alts with
  | [] => none
  | a :: as => if startsWithL a cs then some a.length else prefMatch as cs

/-- Fuel-based worker for `countOcc` (fuel = input length suffices: every
step consumes at least one character). -/
def countOccF (alts : List (List Char)) : Nat → List Char → Nat
  | _, [] => 0
  | 0, _ :: _ => 0
  | fuel + 1, c :: rest =>
      match prefMatch alts (c :: rest) with
      | some n => 1 + countOccF alts fuel (rest.drop (n - 1))
      | none => countOccF alts fuel rest

/-- `[regex]::Matches(text, alt1|alt2|...).Count` for literal alternatives:
left-to-right, non-overlapping, first alternative preferred. -/
def countOcc (alts : List (List Char)) (cs : List Char) : Nat :=
  countOccF alts cs.length cs

/-- Does the pattern (alternation of literals) match anywhere in the line
(`-match` / `Select-String`)? -/
def hasMatch (alts : List (List Char)) : List Char → Bool
  | [] => false
  | c :: rest => (prefMatch alts (c :: rest)).isSome || hasMatch alts rest

/-! ## The pattern registry (`$patterns`), literals written out from the
source's `[regex]::Unescape` escape sequences. -/

def erShiPat : List Char := str "而是"        -- 而是
def buShiPat : List Char := str "不是"        -- 不是
def niHuiPat : List Char := str "你会"        -- 你会
def niPat : List Char := str "你"             -- 你
def semicolonPat : List Char := str "；"      -- ；
def colonChar : Char := Char.ofNat 0xFF1A    -- ：
def periodPat : List Char := str "。"         -- 。
def exclChar : Char := Char.ofNat 0xFF01     -- ！
def dashPat : List Char := str "——"           -- ——

def roadmarkAlts : List (List Char) :=
  [str "更关键", str "更要命", str "换句话说", str "事实上",
   str "值得注意", str "总之", str "与此同时"]

def aiRoadmarksExtraAlts : List (List Char) :=
  [str "不可否认", str "毫无疑问", str "综上所述"]

def metaphorAlts : List (List Char) :=
  [str "如同", str "仿佛", str "好比", str "犹如"]

def doubleAdjPat : List Char := str "而又"

/-! ## Whole-text pattern counts -/

def erShiCount (t : List Char) : Nat := countOcc [erShiPat] t
def buShiCount (t : List Char) : Nat := countOcc [buShiPat] t
def niHuiCount (t : List Char) : Nat := countOcc [niHuiPat] t
def niCount (t : List Char) : Nat := countOcc [niPat] t
def semicolonCount (t : List Char) : Nat := countOcc [semicolonPat] t
def colonRawCount (t : List Char) : Nat := countOcc [[colonChar]] t
def periodCount (t : List Char) : Nat := countOcc [periodPat] t
def exclCount (t : List Char) : Nat := countOcc [[exclChar]] t
def dashCount (t : List Char) : Nat := countOcc [dashPat] t
def roadmarkCount (t : List Char) : Nat := countOcc roadmarkAlts t
def aiRoadmarksExtraCount (t : List Char) : Nat := countOcc aiRoadmarksExtraAlts t
def metaphorCount (t : List Char) : Nat := countOcc metaphorAlts t
def doubleAdjCount (t : List Char) : Nat := countOcc [doubleAdjPat] t

/-- Does `(?m)^##\s` match at this position (which must be a line start)? -/
def h2At : List Char → Bool
  | '#' :: '#' :: c :: _ => isWs c
  | _ => false

/-- `^##\s` matches found after a `\n` (multiline anchors). -/
def countH2After : List Char → Nat
  | [] => 0
  | '\n' :: rest => (if h2At rest then 1 else 0) + countH2After rest
  | _ :: rest => countH2After rest

/-- `$headingCount`: `[regex]::Matches($text, "(?m)^##\s").Count`. -/
def headingCount (t : List Char) : Nat :=
  (if h2At t then 1 else 0) + countH2After t

/-! ## Configuration and the colon rule -/

/-- The script's parameters (besides the path). -/
structure Config where
  colonBudget : Int := 2
  colonExceptionsQuoteOnly : Bool := true
  skipTitleLine : Bool := false

/-- `Select-String -Pattern "："`: the numbered lines containing a colon. -/
def colonLinesAll (t : List Char) : List (Nat × List Char) :=
  (lineRecords t).filter (fun r => hasMatch [[colonChar]] r.2)

/-- `$colonHits` after the `SkipTitleLine` filter (`LineNumber -gt 1`). -/
def colonHitLines (cfg : Config) (t : List Char) : List (Nat × List Char) :=
  if cfg.skipTitleLine then (colonLinesAll t).filter (fun r => decide (1 < r.1))
  else colonLinesAll t

/-- `$lines[0]`: for a multi-line file `Get-Content` returns an array and
this is the first line; for a single-line file it returns a bare string and
`[0]` indexes its first character; for an empty file it is null (empty). -/
def firstLineForSkip (t : List Char) : List Char :=
  match splitLines t with
  | [] => []
  | [l] => l.take 1
  | l :: _ => l

/-- `$colonCount`: colon occurrences in the full text, minus the line-1
occurrences when `SkipTitleLine` is set. -/
def colonCount (cfg : Config) (t : List Char) : Nat :=
  if cfg.skipTitleLine then
    colonRawCount t - countOcc [[colonChar]] (firstLineForSkip t)
  else colonRawCount t

/-- The six bare speech-verb alternatives of `$quoteOnlyPattern`.  In the
source the pattern is built without grouping parentheses, so each of these
verbs is a complete regex alternative on its own. -/
def verbAlts : List (List Char) :=
  [str "说", str "问", str "答", str "写道", str "指出", str "表示"]

def qiangdiao : List Char := str "强调"

def lquote : Char := Char.ofNat 0x201C       -- “

/-- The final regex alternative: `强调\s*：\s*[“"']` (only this verb gets the
colon-and-quote tail, again because the alternation is ungrouped). -/
def qdAt (cs : List Char) : Bool :=
  startsWithL qiangdiao cs &&
  (match (cs.drop 2).dropWhile isWs with
   | c1 :: r1 =>
       c1 == colonChar &&
       (match r1.dropWhile isWs with
        | c2 :: _ => c2 == lquote || c2 == Char.ofNat 34 || c2 == Char.ofNat 39
        | [] => false)
   | [] => false)

/-- Does `$quoteOnlyPattern` match starting at this position? -/
def exemptAt (cs : List Char) : Bool :=
  verbAlts.any (fun v => startsWithL v cs) || qdAt cs

def anySuffix (p : List Char → Bool) : List Char → Bool
  | [] => p []
  | c :: rest => p (c :: rest) || anySuffix p rest

/-- `$hit.Line -match $quoteOnlyPattern`. -/
def lineExempt (l : List Char) : Bool := anySuffix exemptAt l

/-- Modelled from the spec: the intended quote-only exemption shape, a
speech-introducing verb (说, 问, 答, 写道, 指出, 表示, 强调) followed by
optional whitespace, a full-width colon, optional whitespace and an opening
quotation mark.  This is what `$quoteOnlyPattern` would match had its
alternation been grouped; it exists only to compare the source's behaviour
against the spec's words. -/
def specExemptAt (cs : List Char) : Bool :=
  (verbAlts ++ [qiangdiao]).any (fun v =>
    startsWithL v cs &&
    (match (cs.drop v.length).dropWhile isWs with
     | c1 :: r1 =>
         c1 == colonChar &&
         (match r1.dropWhile isWs with
          | c2 :: _ => c2 == lquote || c2 == Char.ofNat 34 || c2 == Char.ofNat 39
          | [] => false)
     | [] => false))

/-- Modelled from the spec: a line is exempt when the intended shape occurs
anywhere in it. -/
def specLineExempt (l : List Char) : Bool := anySuffix specExemptAt l

/-- `$colonViolations`: built only when `ColonExceptionsQuoteOnly` is set;
the colon-bearing lines whose text does not match `$quoteOnlyPattern`. -/
def colonViolations (cfg : Config) (t : List Char) : List (Nat × List Char) :=
  if cfg.colonExceptionsQuoteOnly then
    (colonHitLines cfg t).filter (fun r => !(lineExempt r.2))
  else []

/-! ## Verdict aggregation (`$issues` and the Result block) -/

/-- The failure reasons, as structured values; `renderIssue` recovers the
exact strings the script appends to `$issues`. -/
inductive Issue where
  | erShi (n : Nat)
  | niHui (n : Nat)
  | colonBudget (n : Nat) (b : Int)
  | colonUsage
  | shortParas (n : Nat)
  | excl (n : Nat)
  | dash (n : Nat)
  | roadmark (n : Nat)
deriving DecidableEq

/-- The `$issues` list, in the order the script appends them. -/
def issues (cfg : Config) (t : List Char) : List Issue :=
  (if 1 < erShiCount t then [Issue.erShi (erShiCount t)] else []) ++
  (if 0 < niHuiCount t then [Issue.niHui (niHuiCount t)] else []) ++
  (if ¬((colonCount cfg t : Int) ≤ cfg.colonBudget) then
    [Issue.colonBudget (colonCount cfg t) cfg.colonBudget] else []) ++
  (if ¬(cfg.colonExceptionsQuoteOnly = false ∨ (colonViolations cfg t).length = 0) then
    [Issue.colonUsage] else []) ++
  (if 4 ≤ shortParagraphCount t then [Issue.shortParas (shortParagraphCount t)] else []) ++
  (if 2 < exclCount t then [Issue.excl (exclCount t)] else []) ++
  (if 3 < dashCount t then [Issue.dash (dashCount t)] else []) ++
  (if 2 < roadmarkCount t then [Issue.roadmark (roadmarkCount t)] else [])

/-- PASS (`$issues.Count -eq 0`). -/
def verdictPass (cfg : Config) (t : List Char) : Bool := (issues cfg t).isEmpty

/-! ## Report rendering -/

def natCharsF : Nat → Nat → List Char → List Char
  | 0, _, acc => acc
  | fuel + 1, n, acc =>
      if n < 10 then Char.ofNat (48 + n) :: acc
      else natCharsF fuel (n / 10) (Char.ofNat (48 + n % 10) :: acc)

/-- Decimal rendering of a natural number. -/
def natChars (n : Nat) : List Char := natCharsF (n + 1) n []

/-- Decimal rendering of an integer. -/
def intChars (i : Int) : List Char :=
  if i < 0 then '-' :: natChars i.natAbs else natChars i.natAbs

/-- The exact `$issues` strings of the script. -/
def renderIssue : Issue → List Char
  | .erShi n => str "er_shi count " ++ natChars n ++ str " > 1"
  | .niHui n => str "ni_hui count " ++ natChars n ++ str " > 0"
  | .colonBudget n b => str "colon count " ++ natChars n ++ str " exceeds budget " ++ intChars b
  | .colonUsage => str "non-quote colon usage detected"
  | .shortParas n => str "short paragraphs (" ++ natChars n ++ str " >= 4)"
  | .excl n => str "exclamation marks " ++ natChars n ++ str " > 2"
  | .dash n => str "dashes " ++ natChars n ++ str " > 3"
  | .roadmark n => str "roadmark terms " ++ natChars n ++ str " > 2"

/-- `"  L{0}: {1}" -f $_.LineNumber, $_.Line.Trim()`. -/
def hitLine (r : Nat × List Char) : List Char :=
  str "  L" ++ natChars r.1 ++ str ": " ++ trim r.2

def noneLine : List Char := str "  none"

/-- `Select-String -Pattern "而是|你会"`. -/
def erNiHitLines (t : List Char) : List (Nat × List Char) :=
  (lineRecords t).filter (fun r => hasMatch [erShiPat, niHuiPat] r.2)

/-- The `--- Hit Lines (er_shi|ni_hui) ---` block: always rendered, with a
`none` placeholder when empty. -/
def hitLinesSection (t : List Char) : List (List Char) :=
  str "--- Hit Lines (er_shi|ni_hui) ---" ::
    (if (erNiHitLines t).isEmpty then [noneLine] else (erNiHitLines t).map hitLine)

/-- The `--- Colon Lines ---` block: always rendered, with a `none`
placeholder when empty. -/
def colonLinesSection (cfg : Config) (t : List Char) : List (List Char) :=
  str "--- Colon Lines ---" ::
    (if (colonHitLines cfg t).isEmpty then [noneLine] else (colonHitLines cfg t).map hitLine)

/-- The `--- Colon Violations ---` block: only when violations exist. -/
def colonViolSection (cfg : Config) (t : List Char) : List (List Char) :=
  if 0 < (colonViolations cfg t).length then
    str "--- Colon Violations (non-quote usage) ---" :: (colonViolations cfg t).map hitLine
  else []

def exclHitLines (t : List Char) : List (Nat × List Char) :=
  (lineRecords t).filter (fun r => hasMatch [[exclChar]] r.2)

/-- The exclamation block: only when some line has a `！`. -/
def exclSection (t : List Char) : List (List Char) :=
  if (exclHitLines t).isEmpty then []
  else str "--- Exclamation Mark Lines ---" :: (exclHitLines t).map hitLine

def dashHitLines (t : List Char) : List (Nat × List Char) :=
  (lineRecords t).filter (fun r => hasMatch [dashPat] r.2)

/-- The dash block: only when the dash count exceeds 3. -/
def dashSection (t : List Char) : List (List Char) :=
  if 3 < dashCount t then
    (str "--- Dash Warning (>3 occurrences: " ++ natChars (dashCount t) ++ str ") ---") ::
      (dashHitLines t).map hitLine
  else []

def metaphorHitLines (t : List Char) : List (Nat × List Char) :=
  (lineRecords t).filter (fun r => hasMatch metaphorAlts r.2)

/-- The metaphor block: header and count line always rendered, hit lines
only when the count is nonzero. -/
def metaphorSection (t : List Char) : List (List Char) :=
  str "--- Metaphor Markers (rough screen) ---" ::
  (str "  Count: " ++ natChars (metaphorCount t)) ::
  (if 0 < metaphorCount t then (metaphorHitLines t).map hitLine else [])

def doubleAdjHitLines (t : List Char) : List (Nat × List Char) :=
  (lineRecords t).filter (fun r => hasMatch [doubleAdjPat] r.2)

/-- The double-adjective block: only when the count is nonzero. -/
def doubleAdjSection (t : List Char) : List (List Char) :=
  if 0 < doubleAdjCount t then
    str "--- Double Adjective Warning (A而又B) ---" ::
    (str "  Count: " ++ natChars (doubleAdjCount t)) ::
      (doubleAdjHitLines t).map hitLine
  else []

/-- The `--- Pattern Counts ---` table body, in `$patterns` order. -/
def patternCounts (t : List Char) : List (List Char) :=
  [str "  er_shi: " ++ natChars (erShiCount t),
   str "  bu_shi: " ++ natChars (buShiCount t),
   str "  ni_hui: " ++ natChars (niHuiCount t),
   str "  ni: " ++ natChars (niCount t),
   str "  semicolon: " ++ natChars (semicolonCount t),
   str "  colon: " ++ natChars (colonRawCount t),
   str "  period: " ++ natChars (periodCount t),
   str "  exclamation: " ++ natChars (exclCount t),
   str "  dash: " ++ natChars (dashCount t),
   str "  roadmark_terms: " ++ natChars (roadmarkCount t),
   str "  ai_roadmarks_extra: " ++ natChars (aiRoadmarksExtraCount t),
   str "  metaphor_markers: " ++ natChars (metaphorCount t),
   str "  double_adj: " ++ natChars (doubleAdjCount t)]

/-- The `===== Result =====` block. -/
def resultSection (cfg : Config) (t : List Char) : List (List Char) :=
  str "===== Result =====" ::
  (if (issues cfg t).isEmpty then [str "  PASS"]
   else str "  FAIL" :: (issues cfg t).map (fun i => str "  - " ++ renderIssue i))

/-- The whole report, one entry per `Write-Output` line (empty entries are
the blank separator lines). -/
def report (cfg : Config) (path : List Char) (t : List Char) : List (List Char) :=
  [str "===== Style Lint Report =====",
   str "File: " ++ path,
   str "Chars: " ++ natChars t.length,
   str "Lines: " ++ natChars (splitLines t).length,
   [],
   str "--- Paragraph Analysis ---",
   str "Paragraphs: " ++ natChars (paragraphCount t),
   str "Avg paragraph length: " ++ natChars (avgParaLen t) ++ str " chars",
   str "Short paragraphs (<100 chars): " ++ natChars (shortParagraphCount t),
   str "H2 headings (##): " ++ natChars (headingCount t),
   str "Colon budget: " ++ intChars cfg.colonBudget,
   [],
   str "--- Pattern Counts ---"] ++
  patternCounts t ++
  [[]] ++ hitLinesSection t ++
  [[]] ++ colonLinesSection cfg t ++
  [[]] ++ colonViolSection cfg t ++
  [[]] ++ exclSection t ++
  [[]] ++ dashSection t ++
  [[]] ++ metaphorSection t ++
  [[]] ++ doubleAdjSection t ++
  [[]] ++ resultSection cfg t

/-- The run as a whole: the `Test-Path` guard aborts with an error before
any analysis; otherwise the report and the verdict are produced.  The
filesystem is abstracted as a partial map from paths to file contents. -/
def runLint (fs : List Char → Option (List Char)) (path : List Char)
    (cfg : Config) : Except (List Char) (List (List Char) × List Issue) :=
  match fs path with
  | none => Except.error (str "File not found: " ++ path)
  | some t => Except.ok (report cfg path t, issues cfg t)

/-! ## Basic lemmas about the text utilities -/

theorem nlRun_len (cs : List Char) :
    (nlRun cs).2.2.length + (nlRun cs).2.1 = cs.length := by
  induction cs using nlRun.induct <;> simp [nlRun] <;> omega

theorem nlRun_tok_le (cs : List Char) : (nlRun cs).1 ≤ (nlRun cs).2.1 := by
  induction cs using nlRun.induct <;> simp [nlRun] <;> omega

theorem nlRun_drop (cs : List Char) : (nlRun cs).2.2 = cs.drop (nlRun cs).2.1 := by
  induction cs using nlRun.induct <;> simp_all [nlRun]

theorem nlRun_zero_m (cs : List Char) (h : (nlRun cs).1 = 0) :
    (nlRun cs).2.1 = 0 ∧ (nlRun cs).2.2 = cs := by
  induction cs using nlRun.induct <;> simp_all [nlRun]

theorem nlRun_zero_head (e : Char) (r : List Char) (h : (nlRun (e :: r)).1 = 0) :
    e ≠ '\n' ∧ ¬(e = '\r' ∧ r.head? = some '\n') := by
  constructor
  · intro he
    subst he
    simp [nlRun] at h
  · rintro ⟨he, hr⟩
    subst he
    cases r with
    | nil => simp at hr
    | cons r0 rs =>
        have : r0 = '\n' := by simpa using hr
        subst this
        simp [nlRun] at h

theorem nlRun_eq_zero_of (c : Char) (cs : List Char) (h1 : c ≠ '\n')
    (h2 : ¬(c = '\r' ∧ cs.head? = some '\n')) : nlRun (c :: cs) = (0, 0, c :: cs) := by
  unfold nlRun
  split
  · next rest heq =>
      injection heq with hc _
      exact absurd hc h1
  · next rest heq =>
      injection heq with hc hrest
      exact absurd ⟨hc, by rw [hrest]; rfl⟩ h2
  · rfl

theorem nlRun_one_inv (cs : List Char) (h : (nlRun cs).1 = 1) :
    ((nlRun cs).2.1 = 1 ∧ ∃ r, cs = '\n' :: r ∧ (nlRun r).1 = 0) ∨
    ((nlRun cs).2.1 = 2 ∧ ∃ r, cs = '\r' :: '\n' :: r ∧ (nlRun r).1 = 0) := by
  rcases cs with _ | ⟨c, rest⟩
  · simp [nlRun] at h
  · by_cases hc : c = '\n'
    · subst hc
      have hstep : nlRun ('\n' :: rest) =
          ((nlRun rest).1 + 1, (nlRun rest).2.1 + 1, (nlRun rest).2.2) := rfl
      have hr : (nlRun rest).1 = 0 := by
        rw [hstep] at h
        simpa using h
      refine Or.inl ⟨?_, rest, rfl, hr⟩
      rw [hstep]
      simp [(nlRun_zero_m rest hr).1]
    · by_cases hcr : c = '\r' ∧ rest.head? = some '\n'
      · obtain ⟨hc13, hh⟩ := hcr
        subst hc13
        rcases rest with _ | ⟨r0, rs⟩
        · simp at hh
        · have hr0 : r0 = '\n' := by simpa using hh
          subst hr0
          have hstep : nlRun ('\r' :: '\n' :: rs) =
              ((nlRun rs).1 + 1, (nlRun rs).2.1 + 2, (nlRun rs).2.2) := rfl
          have hr : (nlRun rs).1 = 0 := by
            rw [hstep] at h
            simpa using h
          refine Or.inr ⟨?_, rs, rfl, hr⟩
          rw [hstep]
          simp [(nlRun_zero_m rs hr).1]
      · rw [nlRun_eq_zero_of c rest hc hcr] at h
        simp at h

theorem nlRun_mono (xs ys : List Char) : (nlRun xs).1 ≤ (nlRun (xs ++ ys)).1 := by
  induction xs using nlRun.induct <;> simp_all [nlRun]

theorem drop_append_le {α : Type} (xs ys : List α) (k : Nat) (h : k ≤ xs.length) :
    (xs ++ ys).drop k = xs.drop k ++ ys := by
  induction xs generalizing k with
  | nil =>
      simp at h
      subst h
      simp
  | cons c rest ih =>
      cases k with
      | zero => simp
      | succ k =>
          simp only [List.length_cons] at h
          simp [ih k (by omega)]

theorem drop_append_right {α : Type} (xs ys : List α) (j : Nat) :
    (xs ++ ys).drop (xs.length + j) = ys.drop j := by
  induction xs with
  | nil => simp
  | cons c rest ih => simp [Nat.succ_add, ih]

/-! ## Lemmas about `hasBreak` -/

theorem hasBreak_false_iff (xs : List Char) :
    hasBreak xs = false ↔ ∀ k, k < xs.length → (nlRun (xs.drop k)).1 ≤ 1 := by
  induction xs with
  | nil => simp [hasBreak]
  | cons c rest ih =>
      rw [hasBreak, Bool.or_eq_false_iff, decide_eq_false_iff_not, ih]
      constructor
      · intro h k hk
        cases k with
        | zero =>
            simp only [List.drop_zero]
            omega
        | succ k =>
            rw [List.drop_succ_cons]
            exact h.2 k (by simpa using hk)
      · intro h
        refine ⟨by have := h 0 (by simp); simp at this; omega, fun k hk => ?_⟩
        have := h (k + 1) (by simpa using hk)
        rwa [List.drop_succ_cons] at this

theorem hasBreak_false_tail (c : Char) (rest : List Char)
    (h : hasBreak (c :: rest) = false) : hasBreak rest = false := by
  rw [hasBreak, Bool.or_eq_false_iff] at h
  exact h.2

theorem hasBreak_false_head (c : Char) (rest : List Char)
    (h : hasBreak (c :: rest) = false) : (nlRun (c :: rest)).1 ≤ 1 := by
  rw [hasBreak, Bool.or_eq_false_iff, decide_eq_false_iff_not] at h
  omega

theorem hasBreak_false_drop (xs : List Char) (k : Nat)
    (h : hasBreak xs = false) : hasBreak (xs.drop k) = false := by
  induction k generalizing xs with
  | zero => simpa using h
  | succ k ih =>
      cases xs with
      | nil => simp [hasBreak]
      | cons c rest =>
          rw [List.drop_succ_cons]
          exact ih rest (hasBreak_false_tail c rest h)

theorem hasBreak_false_append_left (xs ys : List Char)
    (h : hasBreak (xs ++ ys) = false) : hasBreak xs = false := by
  rw [hasBreak_false_iff] at h ⊢
  intro k hk
  have h1 := h k (by simp; omega)
  rw [drop_append_le xs ys k (by omega)] at h1
  exact le_trans (nlRun_mono (xs.drop k) ys) h1

theorem hasBreak_false_dropWhile (p : Char → Bool) (xs : List Char)
    (h : hasBreak xs = false) : hasBreak (xs.dropWhile p) = false := by
  induction xs with
  | nil => simpa using h
  | cons c rest ih =>
      rw [List.dropWhile_cons]
      split
      · exact ih (hasBreak_false_tail c rest h)
      · exact h

theorem trimEnd_decomp (xs : List Char) :
    xs = trimEnd xs ++ (xs.reverse.takeWhile isWs).reverse := by
  have h := List.takeWhile_append_dropWhile (p := isWs) (l := xs.reverse)
  have h2 := congrArg List.reverse h
  rw [List.reverse_append, List.reverse_reverse] at h2
  exact h2.symm

theorem hasBreak_false_trim (xs : List Char) (h : hasBreak xs = false) :
    hasBreak (trim xs) = false := by
  have h1 : hasBreak (trimL xs) = false := hasBreak_false_dropWhile isWs xs h
  have h2 := trimEnd_decomp (trimL xs)
  rw [h2] at h1
  exact hasBreak_false_append_left _ _ h1

theorem dropLf_len (cs : List Char) : (dropLf cs).length ≤ cs.length := by
  unfold dropLf
  split <;> simp

theorem takeLine_rest_lt (cs : List Char) (h : cs ≠ []) :
    (takeLine cs).2.length < cs.length := by
  induction cs with
  | nil => exact absurd rfl h
  | cons c rest ih =>
      by_cases h1 : c = '\n'
      · simp [takeLine, h1]
      · by_cases h2 : c = Char.ofNat 13
        · have := dropLf_len rest
          simp only [takeLine, if_neg h1, if_pos h2, List.length_cons]
          omega
        · simp only [takeLine, if_neg h1, if_neg h2]
          cases rest with
          | nil => simp [takeLine]
          | cons d ds =>
              have := ih (by simp)
              simp at this ⊢
              omega

/-! ## Lemmas about `trim` -/

theorem dropWhile_head_false (p : Char → Bool) (xs : List Char) (c : Char)
    (rest : List Char) (h : xs.dropWhile p = c :: rest) : p c = false := by
  induction xs with
  | nil => simp at h
  | cons x xs ih =>
      rw [List.dropWhile_cons] at h
      split at h
      · exact ih h
      · next hx =>
          injection h with h1 _
          subst h1
          simpa using hx

theorem trimEnd_getLast_not_ws (xs : List Char) (c : Char)
    (h : (trimEnd xs).getLast? = some c) : isWs c = false := by
  unfold trimEnd at h
  rw [List.getLast?_reverse] at h
  cases heq : xs.reverse.dropWhile isWs with
  | nil => rw [heq] at h; simp at h
  | cons d ds =>
      rw [heq] at h
      simp only [List.head?_cons, Option.some.injEq] at h
      exact h ▸ dropWhile_head_false isWs xs.reverse d ds heq

theorem trimEnd_head_eq (y : List Char) (h : trimEnd y ≠ []) :
    (trimEnd y).head? = y.head? := by
  conv_rhs => rw [trimEnd_decomp y]
  cases hE : trimEnd y with
  | nil => exact absurd hE h
  | cons a as => simp

theorem trim_head_not_ws (xs : List Char) (c : Char)
    (h : (trim xs).head? = some c) : isWs c = false := by
  unfold trim at h
  have hne : trimEnd (trimL xs) ≠ [] := by
    intro hnil
    rw [hnil] at h
    simp at h
  rw [trimEnd_head_eq _ hne] at h
  cases heq : trimL xs with
  | nil => rw [heq] at h; simp at h
  | cons d ds =>
      rw [heq] at h
      simp only [List.head?_cons, Option.some.injEq] at h
      exact h ▸ dropWhile_head_false isWs xs d ds heq

theorem trim_getLast_not_ws (xs : List Char) (c : Char)
    (h : (trim xs).getLast? = some c) : isWs c = false :=
  trimEnd_getLast_not_ws (trimL xs) c h

theorem trimL_eq_self (xs : List Char)
    (hh : ∀ c, xs.head? = some c → isWs c = false) : trimL xs = xs := by
  cases xs with
  | nil => rfl
  | cons c rest => simp [trimL, List.dropWhile_cons, hh c rfl]

theorem trimEnd_eq_self (xs : List Char)
    (hl : ∀ c, xs.getLast? = some c → isWs c = false) : trimEnd xs = xs := by
  unfold trimEnd
  have hdw : xs.reverse.dropWhile isWs = xs.reverse := by
    cases hx : xs.reverse with
    | nil => simp
    | cons d ds =>
        have hd : xs.getLast? = some d := by
          rw [← List.head?_reverse, hx]
          rfl
        rw [List.dropWhile_cons, hl d hd]
        simp
  rw [hdw, List.reverse_reverse]

theorem trim_eq_self (xs : List Char)
    (hh : ∀ c, xs.head? = some c → isWs c = false)
    (hl : ∀ c, xs.getLast? = some c → isWs c = false) : trim xs = xs := by
  unfold trim
  rw [trimL_eq_self xs hh, trimEnd_eq_self xs hl]

theorem trim_idem (xs : List Char) : trim (trim xs) = trim xs :=
  trim_eq_self _ (fun c h => trim_head_not_ws xs c h)
    (fun c h => trim_getLast_not_ws xs c h)

/-! ## Fuel elimination for the paragraph scanner -/

theorem paraScanF_fuel (f : Nat) : ∀ (g : Nat) (cs acc : List Char),
    cs.length ≤ f → cs.length ≤ g → paraScanF f cs acc = paraScanF g cs acc := by
  induction f with
  | zero =>
      intro g cs acc h1 h2
      cases cs with
      | nil => cases g <;> rfl
      | cons c rest => simp at h1
  | succ f ih =>
      intro g cs acc h1 h2
      cases cs with
      | nil => cases g <;> rfl
      | cons c rest =>
          cases g with
          | zero => simp at h2
          | succ g =>
              have hlen := nlRun_len (c :: rest)
              have htok := nlRun_tok_le (c :: rest)
              simp only [List.length_cons] at h1 h2 hlen
              simp only [paraScanF]
              split_ifs with hc1 hc2
              · congr 1
                exact ih g _ [] (by omega) (by omega)
              · exact ih g _ _ (by omega) (by omega)
              · exact ih g rest _ (by omega) (by omega)

theorem paraScan_cons (c : Char) (rest acc : List Char) :
    paraScan (c :: rest) acc =
      if 2 ≤ (nlRun (c :: rest)).1 then
        acc.reverse :: paraScan (nlRun (c :: rest)).2.2 []
      else if (nlRun (c :: rest)).1 = 1 then
        paraScan (nlRun (c :: rest)).2.2
          (((c :: rest).take (nlRun (c :: rest)).2.1).reverse ++ acc)
      else paraScan rest (c :: acc) := by
  have hlen := nlRun_len (c :: rest)
  have htok := nlRun_tok_le (c :: rest)
  simp only [List.length_cons] at hlen
  unfold paraScan
  simp only [List.length_cons, paraScanF]
  split_ifs with hc1 hc2
  · congr 1
    exact paraScanF_fuel rest.length _ _ [] (by omega) le_rfl
  · exact paraScanF_fuel rest.length _ _ _ (by omega) le_rfl
  · rfl

theorem paraScan_nil (acc : List Char) : paraScan [] acc = [acc.reverse] := rfl

/-! ## The chunks of the paragraph scanner contain no paragraph break -/

theorem paraScan_chunks (n : Nat) : ∀ (cs acc : List Char), cs.length ≤ n →
    (∀ k, k < acc.length → (nlRun ((acc.reverse ++ cs).drop k)).1 ≤ 1) →
    ∀ q ∈ paraScan cs acc, hasBreak q = false := by
  have hbase : ∀ acc : List Char,
      (∀ k, k < acc.length → (nlRun ((acc.reverse ++ ([] : List Char)).drop k)).1 ≤ 1) →
      ∀ q ∈ paraScan [] acc, hasBreak q = false := by
    intro acc hinv q hq
    rw [paraScan_nil, List.mem_singleton] at hq
    subst hq
    rw [hasBreak_false_iff]
    intro k hk
    have h2 := hinv k (by simpa using hk)
    simpa using h2
  induction n with
  | zero =>
      intro cs acc h1 hinv q hq
      cases cs with
      | nil => exact hbase acc hinv q hq
      | cons c rest => simp at h1
  | succ n ih =>
      intro cs acc h1 hinv q hq
      cases cs with
      | nil => exact hbase acc hinv q hq
      | cons c rest =>
          have hlen := nlRun_len (c :: rest)
          have htok := nlRun_tok_le (c :: rest)
          simp only [List.length_cons] at h1 hlen
          rw [paraScan_cons] at hq
          split_ifs at hq with hc1 hc2
          · rcases List.mem_cons.mp hq with hq1 | hq2
            · subst hq1
              rw [hasBreak_false_iff]
              intro k hk
              simp only [List.length_reverse] at hk
              have h2 := hinv k hk
              rw [drop_append_le acc.reverse (c :: rest) k (by simp; omega)] at h2
              exact le_trans (nlRun_mono _ _) h2
            · exact ih (nlRun (c :: rest)).2.2 [] (by omega)
                (by intro k hk; simp at hk) q hq2
          · refine ih (nlRun (c :: rest)).2.2 _ (by omega) ?_ q hq
            intro k hk
            have hR : (nlRun (c :: rest)).2.2 =
                (c :: rest).drop (nlRun (c :: rest)).2.1 := nlRun_drop _
            have hS : ((((c :: rest).take (nlRun (c :: rest)).2.1).reverse ++ acc).reverse ++
                (nlRun (c :: rest)).2.2) = acc.reverse ++ (c :: rest) := by
              rw [hR, List.reverse_append, List.reverse_reverse, List.append_assoc,
                List.take_append_drop]
            rw [hS]
            have htake : ((c :: rest).take (nlRun (c :: rest)).2.1).length =
                (nlRun (c :: rest)).2.1 := by
              simp only [List.length_take, List.length_cons]
              omega
            simp only [List.length_append, List.length_reverse, htake] at hk
            by_cases hks : k < acc.length
            · exact hinv k hks
            · obtain ⟨j, rfl⟩ : ∃ j, k = acc.length + j := ⟨k - acc.length, by omega⟩
              have hj : j < (nlRun (c :: rest)).2.1 := by omega
              have hrevlen : acc.length = acc.reverse.length := by simp
              rw [hrevlen, drop_append_right]
              rcases nlRun_one_inv (c :: rest) hc2 with ⟨hm1, r, hcs, hr0⟩ |
                ⟨hm2, r, hcs, hr0⟩
              · have hj0 : j = 0 := by omega
                subst hj0
                simp only [List.drop_zero]
                omega
              · have : j = 0 ∨ j = 1 := by omega
                rcases this with rfl | rfl
                · simp only [List.drop_zero]
                  omega
                · rw [hcs]
                  show (nlRun ('\n' :: r)).1 ≤ 1
                  have hstep : (nlRun ('\n' :: r)).1 = (nlRun r).1 + 1 := rfl
                  omega
          · refine ih rest (c :: acc) (by omega) ?_ q hq
            intro k hk
            have hS : (c :: acc).reverse ++ rest = acc.reverse ++ (c :: rest) := by
              simp
            rw [hS]
            simp only [List.length_cons] at hk
            by_cases hks : k < acc.length
            · exact hinv k hks
            · have hk' : k = acc.length := by omega
              subst hk'
              have hrevlen : acc.length = acc.reverse.length := by simp
              have hdr := drop_append_right acc.reverse (c :: rest) 0
              rw [hrevlen]
              simp only [Nat.add_zero] at hdr
              rw [hdr]
              simp only [List.drop_zero]
              omega

theorem splitParas_chunks (cs : List Char) :
    ∀ q ∈ splitParas cs, hasBreak q = false := by
  have h := paraScan_chunks cs.length cs [] le_rfl (by intro k hk; simp at hk)
  simpa [splitParas] using h

/-! ## Scanning a break-free chunk, and scanning across a double break -/

theorem paraScan_noBreak (n : Nat) : ∀ (cs acc : List Char), cs.length ≤ n →
    hasBreak cs = false → paraScan cs acc = [acc.reverse ++ cs] := by
  induction n with
  | zero =>
      intro cs acc h1 h
      cases cs with
      | nil => simp [paraScan_nil]
      | cons c rest => simp at h1
  | succ n ih =>
      intro cs acc h1 h
      cases cs with
      | nil => simp [paraScan_nil]
      | cons c rest =>
          have hlen := nlRun_len (c :: rest)
          have htok := nlRun_tok_le (c :: rest)
          have hhd := hasBreak_false_head c rest h
          simp only [List.length_cons] at h1 hlen
          rw [paraScan_cons]
          split_ifs with hc1 hc2
          · exact absurd hc1 (by omega)
          · have hR : (nlRun (c :: rest)).2.2 =
                (c :: rest).drop (nlRun (c :: rest)).2.1 := nlRun_drop _
            rw [ih _ _ (by omega) (by rw [hR]; exact hasBreak_false_drop _ _ h)]
            rw [List.reverse_append, List.reverse_reverse, List.append_assoc, hR,
              List.take_append_drop]
          · rw [ih rest (c :: acc) (by omega) (hasBreak_false_tail c rest h)]
            simp

theorem nlRun_append_zero (xs z : List Char) (hx : xs ≠ [])
    (h0 : (nlRun xs).1 = 0)
    (hlastr : ∀ c, xs.getLast? = some c → c ≠ '\r') :
    nlRun (xs ++ z) = (0, 0, xs ++ z) := by
  rcases xs with _ | ⟨e, q⟩
  · exact absurd rfl hx
  · have hz := nlRun_zero_head e q h0
    rw [List.cons_append]
    rw [nlRun_eq_zero_of e (q ++ z) hz.1 ?_]
    · rintro ⟨he, hh⟩
      subst he
      cases q with
      | nil => exact absurd rfl (hlastr '\r' (by simp))
      | cons f q3 => exact hz.2 ⟨rfl, by simpa using hh⟩

theorem paraScan_break (n : Nat) : ∀ (q tail acc : List Char),
    q.length ≤ n → hasBreak q = false →
    (∀ c, q.getLast? = some c → c ≠ '\n' ∧ c ≠ '\r') →
    (nlRun tail).1 = 0 →
    paraScan (q ++ '\n' :: '\n' :: tail) acc =
      (acc.reverse ++ q) :: paraScan tail [] := by
  have hnl2 : ∀ tl : List Char, (nlRun tl).1 = 0 →
      nlRun ('\n' :: '\n' :: tl) = (2, 2, tl) := by
    intro tl ht
    have hz := nlRun_zero_m tl ht
    have h1 : nlRun ('\n' :: tl) =
        ((nlRun tl).1 + 1, (nlRun tl).2.1 + 1, (nlRun tl).2.2) := rfl
    have h2 : nlRun ('\n' :: '\n' :: tl) =
        ((nlRun ('\n' :: tl)).1 + 1, (nlRun ('\n' :: tl)).2.1 + 1,
          (nlRun ('\n' :: tl)).2.2) := rfl
    rw [h2, h1]
    simp [ht, hz.1, hz.2]
  have hbase : ∀ (tl acc : List Char), (nlRun tl).1 = 0 →
      paraScan (([] : List Char) ++ '\n' :: '\n' :: tl) acc =
        (acc.reverse ++ []) :: paraScan tl [] := by
    intro tl acc ht
    rw [List.nil_append, paraScan_cons, hnl2 tl ht]
    simp
  induction n with
  | zero =>
      intro q tail acc h1 hq hlast htail
      cases q with
      | nil => exact hbase tail acc htail
      | cons d q' => simp at h1
  | succ n ih =>
      intro q tail acc h1 hq hlast htail
      cases q with
      | nil => exact hbase tail acc htail
      | cons d q' =>
          have hqhd := hasBreak_false_head d q' hq
          simp only [List.length_cons] at h1
          by_cases hd : d = '\n'
          · subst hd
            have hq'0 : (nlRun q').1 = 0 := by
              have hstep : (nlRun ('\n' :: q')).1 = (nlRun q').1 + 1 := rfl
              omega
            rcases hq'e : q' with _ | ⟨e, q''⟩
            · exact absurd rfl (hlast '\n' (by rw [hq'e]; rfl)).1
            · rw [← hq'e]
              have hq'ne : q' ≠ [] := by rw [hq'e]; simp
              have hlast' : ∀ c, q'.getLast? = some c → c ≠ '\n' ∧ c ≠ '\r' := by
                intro c hc
                refine hlast c ?_
                rw [hq'e] at hc ⊢
                rw [List.getLast?_cons_cons]
                exact hc
              have hz := nlRun_append_zero q' ('\n' :: '\n' :: tail) hq'ne hq'0
                (fun c hc => (hlast' c hc).2)
              have hrun : nlRun (('\n' :: q') ++ '\n' :: '\n' :: tail) =
                  (1, 1, q' ++ '\n' :: '\n' :: tail) := by
                rw [List.cons_append]
                have hstep : nlRun ('\n' :: (q' ++ '\n' :: '\n' :: tail)) =
                    ((nlRun (q' ++ '\n' :: '\n' :: tail)).1 + 1,
                     (nlRun (q' ++ '\n' :: '\n' :: tail)).2.1 + 1,
                     (nlRun (q' ++ '\n' :: '\n' :: tail)).2.2) := rfl
                rw [hstep, hz]
              rw [show ('\n' :: q') ++ '\n' :: '\n' :: tail =
                '\n' :: (q' ++ '\n' :: '\n' :: tail) from rfl]
              rw [paraScan_cons]
              rw [show '\n' :: (q' ++ '\n' :: '\n' :: tail) =
                ('\n' :: q') ++ '\n' :: '\n' :: tail from rfl, hrun]
              show paraScan (q' ++ '\n' :: '\n' :: tail) ('\n' :: acc) =
                (acc.reverse ++ '\n' :: q') :: paraScan tail []
              rw [ih q' tail ('\n' :: acc) (by omega)
                (hasBreak_false_tail _ _ hq) hlast' htail]
              simp
          · by_cases hdr : d = '\r' ∧ q'.head? = some '\n'
            · obtain ⟨hd13, hq'h⟩ := hdr
              subst hd13
              rcases q' with _ | ⟨e, q''⟩
              · simp at hq'h
              · have he : e = '\n' := by simpa using hq'h
                subst he
                have hq''0 : (nlRun q'').1 = 0 := by
                  have hstep : (nlRun ('\r' :: '\n' :: q'')).1 = (nlRun q'').1 + 1 := rfl
                  omega
                rcases hq''e : q'' with _ | ⟨f, q3⟩
                · exact absurd rfl (hlast '\n' (by rw [hq''e]; rfl)).1
                · rw [← hq''e]
                  have hq''ne : q'' ≠ [] := by rw [hq''e]; simp
                  have hlast'' : ∀ c, q''.getLast? = some c → c ≠ '\n' ∧ c ≠ '\r' := by
                    intro c hc
                    refine hlast c ?_
                    rw [hq''e] at hc ⊢
                    rw [List.getLast?_cons_cons, List.getLast?_cons_cons]
                    exact hc
                  have hz := nlRun_append_zero q'' ('\n' :: '\n' :: tail) hq''ne hq''0
                    (fun c hc => (hlast'' c hc).2)
                  have hrun : nlRun (('\r' :: '\n' :: q'') ++ '\n' :: '\n' :: tail) =
                      (1, 2, q'' ++ '\n' :: '\n' :: tail) := by
                    rw [show ('\r' :: '\n' :: q'') ++ '\n' :: '\n' :: tail =
                      '\r' :: '\n' :: (q'' ++ '\n' :: '\n' :: tail) from rfl]
                    have hstep : nlRun ('\r' :: '\n' :: (q'' ++ '\n' :: '\n' :: tail)) =
                        ((nlRun (q'' ++ '\n' :: '\n' :: tail)).1 + 1,
                         (nlRun (q'' ++ '\n' :: '\n' :: tail)).2.1 + 2,
                         (nlRun (q'' ++ '\n' :: '\n' :: tail)).2.2) := rfl
                    rw [hstep, hz]
                  rw [show ('\r' :: '\n' :: q'') ++ '\n' :: '\n' :: tail =
                    '\r' :: ('\n' :: q'' ++ '\n' :: '\n' :: tail) from rfl]
                  rw [paraScan_cons]
                  rw [show '\r' :: ('\n' :: q'' ++ '\n' :: '\n' :: tail) =
                    ('\r' :: '\n' :: q'') ++ '\n' :: '\n' :: tail from rfl, hrun]
                  show paraScan (q'' ++ '\n' :: '\n' :: tail) ('\n' :: '\r' :: acc) =
                    (acc.reverse ++ '\r' :: '\n' :: q'') :: paraScan tail []
                  simp only [List.length_cons] at h1
                  rw [ih q'' tail ('\n' :: '\r' :: acc) (by omega)
                    (hasBreak_false_tail _ _ (hasBreak_false_tail _ _ hq)) hlast'' htail]
                  simp
            · have hz : nlRun ((d :: q') ++ '\n' :: '\n' :: tail) =
                  (0, 0, (d :: q') ++ '\n' :: '\n' :: tail) := by
                rw [List.cons_append]
                rw [nlRun_eq_zero_of d (q' ++ '\n' :: '\n' :: tail) hd ?_]
                rintro ⟨hd13, hh⟩
                subst hd13
                cases q' with
                | nil => exact absurd rfl (hlast '\r' (by simp)).2
                | cons e q'' => exact hdr ⟨rfl, by simpa using hh⟩
              rw [show (d :: q') ++ '\n' :: '\n' :: tail =
                d :: (q' ++ '\n' :: '\n' :: tail) from rfl]
              rw [paraScan_cons]
              rw [show d :: (q' ++ '\n' :: '\n' :: tail) =
                (d :: q') ++ '\n' :: '\n' :: tail from rfl, hz]
              show paraScan (q' ++ '\n' :: '\n' :: tail) (d :: acc) =
                (acc.reverse ++ d :: q') :: paraScan tail []
              have hlast' : ∀ c, q'.getLast? = some c → c ≠ '\n' ∧ c ≠ '\r' := by
                intro c hc
                refine hlast c ?_
                cases q' with
                | nil => simp at hc
                | cons e q'' =>
                    rw [List.getLast?_cons_cons]
                    exact hc
              rw [ih q' tail (d :: acc) (by omega)
                (hasBreak_false_tail _ _ hq) hlast' htail]
              simp

theorem paragraphs_def (t : List Char) :
    paragraphs t = (splitParas (trim t)).filter (fun p => 0 < (trim p).length) := rfl

/-! ## Joining paragraphs back together -/

theorem joinParas_cons_cons (q r : List Char) (rest : List (List Char)) :
    joinParas (q :: r :: rest) = q ++ '\n' :: '\n' :: joinParas (r :: rest) := rfl

theorem joinParas_head? (q : List Char) (rest : List (List Char)) (hq : q ≠ []) :
    (joinParas (q :: rest)).head? = q.head? := by
  cases rest with
  | nil => rfl
  | cons r rest' =>
      rw [joinParas_cons_cons]
      cases q with
      | nil => exact absurd rfl hq
      | cons a as => rfl

theorem joinParas_ne_nil (q : List Char) (rest : List (List Char)) (hq : q ≠ []) :
    joinParas (q :: rest) ≠ [] := by
  cases rest with
  | nil => exact hq
  | cons r rest' =>
      rw [joinParas_cons_cons]
      cases q with
      | nil => exact absurd rfl hq
      | cons a as => simp

theorem getLast?_append_right (xs ys : List Char) (h : ys ≠ []) :
    (xs ++ ys).getLast? = ys.getLast? := by
  rw [← List.head?_reverse, ← List.head?_reverse, List.reverse_append]
  cases hys : ys.reverse with
  | nil =>
      have : ys = [] := by simpa using congrArg List.reverse hys
      exact absurd this h
  | cons a as => simp

theorem joinParas_getLast_not_ws (qs : List (List Char))
    (hne : ∀ q ∈ qs, q ≠ [])
    (hws : ∀ q ∈ qs, ∀ c, q.getLast? = some c → isWs c = false) :
    ∀ c, (joinParas qs).getLast? = some c → isWs c = false := by
  induction qs with
  | nil =>
      intro c hc
      simp [joinParas] at hc
  | cons q rest ih =>
      cases rest with
      | nil =>
          intro c hc
          exact hws q (by simp) c hc
      | cons r rest' =>
          intro c hc
          rw [joinParas_cons_cons, getLast?_append_right _ _ (by simp)] at hc
          have hX : ('\n' :: '\n' :: joinParas (r :: rest')).getLast? =
              (joinParas (r :: rest')).getLast? := by
            rcases hJ : joinParas (r :: rest') with _ | ⟨a, as⟩
            · exact absurd hJ (joinParas_ne_nil r rest' (hne r (by simp)))
            · rw [List.getLast?_cons_cons, List.getLast?_cons_cons]
          rw [hX] at hc
          exact ih (fun p hp => hne p (by simp [hp])) (fun p hp => hws p (by simp [hp])) c hc

theorem joinParas_split (qs : List (List Char))
    (hcond : ∀ q ∈ qs, q ≠ [] ∧ hasBreak q = false ∧
      (∀ c, q.head? = some c → isWs c = false) ∧
      (∀ c, q.getLast? = some c → isWs c = false)) (h : qs ≠ []) :
    splitParas (joinParas qs) = qs := by
  induction qs with
  | nil => exact absurd rfl h
  | cons q rest ih =>
      obtain ⟨hqne, hqbrk, hqh, hql⟩ := hcond q (by simp)
      cases rest with
      | nil =>
          show splitParas q = [q]
          unfold splitParas
          rw [paraScan_noBreak q.length q [] le_rfl hqbrk]
          simp
      | cons r rest' =>
          rw [joinParas_cons_cons]
          unfold splitParas
          have hrne : r ≠ [] := (hcond r (by simp)).1
          have hth : (joinParas (r :: rest')).head? = r.head? :=
            joinParas_head? r rest' hrne
          have htail : (nlRun (joinParas (r :: rest'))).1 = 0 := by
            cases hJ : joinParas (r :: rest') with
            | nil => simp [nlRun]
            | cons a as =>
                have ha : r.head? = some a := by rw [← hth, hJ]; rfl
                have haw : isWs a = false := (hcond r (by simp)).2.2.1 a ha
                have h1 : a ≠ '\n' := by
                  intro he
                  rw [he] at haw
                  exact absurd haw (by decide)
                have h2 : ¬(a = '\r' ∧ as.head? = some '\n') := by
                  rintro ⟨he, _⟩
                  rw [he] at haw
                  exact absurd haw (by decide)
                rw [nlRun_eq_zero_of a as h1 h2]
          have hlast : ∀ c, q.getLast? = some c → c ≠ '\n' ∧ c ≠ '\r' := by
            intro c hc
            have hcw := hql c hc
            constructor <;> intro he <;> rw [he] at hcw <;> exact absurd hcw (by decide)
          rw [paraScan_break q.length q (joinParas (r :: rest')) [] le_rfl hqbrk
            hlast htail]
          have hrec := ih (fun p hp => hcond p (by simp [hp])) (by simp)
          unfold splitParas at hrec
          simp [hrec]

/-- C8: re-segmenting the double-line-break join of the already-extracted
trimmed paragraphs yields the same paragraph count as the original
segmentation. -/
theorem claim_C8 (t : List Char) :
    paragraphCount (joinParas ((paragraphs t).map trim)) = paragraphCount t := by
  have hmem : ∀ q ∈ (paragraphs t).map trim, q ≠ [] ∧ hasBreak q = false ∧
      (∀ c, q.head? = some c → isWs c = false) ∧
      (∀ c, q.getLast? = some c → isWs c = false) := by
    intro q hq
    rw [List.mem_map] at hq
    obtain ⟨p, hp, rfl⟩ := hq
    unfold paragraphs at hp
    have hpfilter := List.mem_filter.mp hp
    have hplen : 0 < (trim p).length := by simpa using hpfilter.2
    have hbrk : hasBreak p = false := splitParas_chunks (trim t) p hpfilter.1
    refine ⟨?_, hasBreak_false_trim p hbrk,
      fun c hc => trim_head_not_ws p c hc,
      fun c hc => trim_getLast_not_ws p c hc⟩
    intro h0
    rw [h0] at hplen
    simp at hplen
  rcases hqs : (paragraphs t).map trim with _ | ⟨q, rest⟩
  · have hpt : paragraphs t = [] := by
      rcases hpt : paragraphs t with _ | ⟨p, ps⟩
      · rfl
      · rw [hpt] at hqs
        simp at hqs
    calc paragraphCount (joinParas ([] : List (List Char))) = 0 := by decide
      _ = paragraphCount t := by simp [paragraphCount, hpt]
  · have hsplit := joinParas_split ((paragraphs t).map trim) hmem (by rw [hqs]; simp)
    have hqmem : q ∈ (paragraphs t).map trim := by rw [hqs]; simp
    have hhead : ∀ c, (joinParas ((paragraphs t).map trim)).head? = some c →
        isWs c = false := by
      intro c hc
      rw [hqs] at hc
      obtain ⟨hqne, _, hqh, _⟩ := hmem q hqmem
      rw [joinParas_head? q rest hqne] at hc
      exact hqh c hc
    have hlastw := joinParas_getLast_not_ws ((paragraphs t).map trim)
      (fun p hp => (hmem p hp).1) (fun p hp => (hmem p hp).2.2.2)
    have htrimJ : trim (joinParas ((paragraphs t).map trim)) =
        joinParas ((paragraphs t).map trim) :=
      trim_eq_self _ hhead hlastw
    have hparas : paragraphs (joinParas ((paragraphs t).map trim)) =
        (paragraphs t).map trim := by
      rw [paragraphs_def, htrimJ, hsplit]
      refine List.filter_eq_self.mpr ?_
      intro p hp
      obtain ⟨hne, _, hh, hl⟩ := hmem p hp
      rw [trim_eq_self p hh hl]
      simpa using List.length_pos.mpr hne
    unfold paragraphCount
    rw [← hqs, hparas, List.length_map]

/-! ## Counting lemmas: single-character regex counts agree with `countP`,
and distribute over the line splitting -/

theorem startsWithL_single (c x : Char) (rest : List Char) :
    startsWithL [c] (x :: rest) = (c == x) := by
  simp [startsWithL]

theorem prefMatch_single (c x : Char) (rest : List Char) :
    prefMatch [[c]] (x :: rest) = if c == x then some 1 else none := by
  by_cases h : c == x <;> simp [prefMatch, startsWithL_single, h]

theorem countOccF_single (c : Char) (fuel : Nat) (cs : List Char)
    (h : cs.length ≤ fuel) :
    countOccF [[c]] fuel cs = cs.countP (fun x => c == x) := by
  induction fuel generalizing cs with
  | zero =>
      cases cs with
      | nil => simp [countOccF]
      | cons x rest => simp at h
  | succ fuel ih =>
      cases cs with
      | nil => simp [countOccF]
      | cons x rest =>
          simp only [List.length_cons] at h
          by_cases hx : c == x
          · simp [countOccF, prefMatch_single, hx, List.countP_cons,
              ih rest (by omega)]
            omega
          · simp [countOccF, prefMatch_single, hx, List.countP_cons,
              ih rest (by omega)]

theorem countOcc_single (c : Char) (cs : List Char) :
    countOcc [[c]] cs = cs.countP (fun x => c == x) :=
  countOccF_single c cs.length cs le_rfl

theorem hasMatch_single (c : Char) (l : List Char) :
    hasMatch [[c]] l = l.any (fun x => c == x) := by
  induction l with
  | nil => simp [hasMatch]
  | cons x rest ih =>
      simp only [hasMatch, prefMatch_single, ih, List.any_cons]
      by_cases hx : c == x <;> simp [hx]

theorem hasMatch_single_countP (c : Char) (l : List Char) :
    hasMatch [[c]] l = true ↔ 0 < l.countP (fun x => c == x) := by
  rw [hasMatch_single, List.any_eq_true, List.countP_pos_iff]

theorem takeLine_countP (p : Char → Bool) (hn : p '\n' = false)
    (hr : p (Char.ofNat 13) = false) (cs : List Char) :
    cs.countP p = (takeLine cs).1.countP p + (takeLine cs).2.countP p := by
  induction cs with
  | nil => simp [takeLine]
  | cons c rest ih =>
      by_cases h1 : c = '\n'
      · subst h1
        simp [takeLine, List.countP_cons, hn]
      · by_cases h2 : c = Char.ofNat 13
        · subst h2
          have hdrop : rest.countP p = (dropLf rest).countP p := by
            unfold dropLf
            split
            · next rs => simp [List.countP_cons, hn]
            · rfl
          simp [takeLine, if_neg h1, List.countP_cons, hr, hdrop]
        · simp [takeLine, if_neg h1, if_neg h2, List.countP_cons, ih]
          omega

theorem splitLinesF_countP (p : Char → Bool) (hn : p '\n' = false)
    (hr : p (Char.ofNat 13) = false) (fuel : Nat) (cs : List Char)
    (h : cs.length ≤ fuel) :
    cs.countP p = ((splitLinesF fuel cs).map (fun l => l.countP p)).sum := by
  induction fuel generalizing cs with
  | zero =>
      cases cs with
      | nil => simp [splitLinesF]
      | cons x rest => simp at h
  | succ fuel ih =>
      cases cs with
      | nil => simp [splitLinesF]
      | cons x rest =>
          have hlt := takeLine_rest_lt (x :: rest) (by simp)
          simp only [List.length_cons] at h hlt
          rw [splitLinesF]
          simp only [List.map_cons, List.sum_cons]
          rw [takeLine_countP p hn hr (x :: rest),
            ih (takeLine (x :: rest)).2 (by omega)]

theorem splitLines_countP (p : Char → Bool) (hn : p '\n' = false)
    (hr : p (Char.ofNat 13) = false) (cs : List Char) :
    cs.countP p = ((splitLines cs).map (fun l => l.countP p)).sum :=
  splitLinesF_countP p hn hr cs.length cs le_rfl

/-! ## Lemmas about numbered line records -/

theorem numberFrom_map_snd (k : Nat) (ls : List (List Char)) :
    (numberFrom k ls).map Prod.snd = ls := by
  induction ls generalizing k with
  | nil => simp [numberFrom]
  | cons l rest ih => simp [numberFrom, ih]

theorem numberFrom_mem_fst (k : Nat) (ls : List (List Char)) :
    ∀ r ∈ numberFrom k ls, k ≤ r.1 := by
  induction ls generalizing k with
  | nil => simp [numberFrom]
  | cons l rest ih =>
      intro r hr
      simp only [numberFrom, List.mem_cons] at hr
      rcases hr with h | h
      · subst h; simp
      · exact le_trans (by omega) (ih (k + 1) r h)

theorem numberFrom_filter_snd_len (q : List Char → Bool) (k : Nat)
    (ls : List (List Char)) :
    ((numberFrom k ls).filter (fun r => q r.2)).length = (ls.filter q).length := by
  induction ls generalizing k with
  | nil => simp [numberFrom]
  | cons l rest ih =>
      by_cases hq : q l <;> simp [numberFrom, List.filter_cons, hq, ih]

theorem filter_len_le_sum (q : List Char → Bool) (f : List Char → Nat)
    (ls : List (List Char)) (hf : ∀ l, q l = true → 1 ≤ f l) :
    (ls.filter q).length ≤ (ls.map f).sum := by
  induction ls with
  | nil => simp
  | cons l rest ih =>
      by_cases hq : q l
      · have := hf l hq
        simp [List.filter_cons, hq]
        omega
      · simp [List.filter_cons, hq]
        omega

/-! ## The colon-line inequality -/

theorem colonHitLines_le (cfg : Config) (t : List Char) :
    (colonHitLines cfg t).length ≤ colonCount cfg t := by
  have hn : (fun x => colonChar == x) '\n' = false := by decide
  have hr : (fun x => colonChar == x) (Char.ofNat 13) = false := by decide
  have hcount : ∀ l : List Char, hasMatch [[colonChar]] l = true →
      1 ≤ l.countP (fun x => colonChar == x) := fun l hl =>
    (hasMatch_single_countP colonChar l).mp hl
  by_cases hskip : cfg.skipTitleLine
  · rcases hsplit : splitLines t with _ | ⟨l0, tail⟩
    · have : lineRecords t = [] := by
        simp [lineRecords, hsplit, numberFrom]
      simp [colonHitLines, hskip, colonLinesAll, this]
    · rcases tail with _ | ⟨l1, rest2⟩
      · -- single-line file: every colon record has line number 1 and is
        -- filtered away
        have hrec : lineRecords t = [(1, l0)] := by
          simp [lineRecords, hsplit, numberFrom]
        by_cases hc : hasMatch [[colonChar]] l0 = true <;>
          simp [colonHitLines, hskip, colonLinesAll, hrec, List.filter_cons, hc]
      · -- at least two lines
        have hrec : lineRecords t = (1, l0) :: numberFrom 2 (l1 :: rest2) := by
          simp [lineRecords, hsplit, numberFrom]
        have hsum := splitLines_countP (fun x => colonChar == x) hn hr t
        rw [hsplit] at hsum
        simp only [List.map_cons, List.sum_cons] at hsum
        have hfirst : firstLineForSkip t = l0 := by
          simp [firstLineForSkip, hsplit]
        have hcc : colonCount cfg t =
            ((l1 :: rest2).map (fun l => l.countP (fun x => colonChar == x))).sum := by
          simp only [colonCount, if_pos hskip, hfirst, colonRawCount,
            countOcc_single, hsum, List.map_cons, List.sum_cons]
          omega
        have hlen : (colonHitLines cfg t).length ≤
            ((numberFrom 2 (l1 :: rest2)).filter
              (fun r => hasMatch [[colonChar]] r.2)).length := by
          simp only [colonHitLines, if_pos hskip, colonLinesAll, hrec,
            List.filter_cons]
          by_cases hc : hasMatch [[colonChar]] l0 = true
          · rw [if_pos hc]
            simp only [List.filter_cons, decide_eq_true_eq]
            rw [if_neg (by omega)]
            exact List.length_filter_le _ _
          · rw [if_neg hc]
            exact List.length_filter_le _ _
        calc (colonHitLines cfg t).length
            ≤ ((numberFrom 2 (l1 :: rest2)).filter
                (fun r => hasMatch [[colonChar]] r.2)).length := hlen
          _ = (((l1 :: rest2)).filter (fun l => hasMatch [[colonChar]] l)).length :=
              numberFrom_filter_snd_len _ 2 _
          _ ≤ ((l1 :: rest2).map (fun l => l.countP (fun x => colonChar == x))).sum :=
              filter_len_le_sum _ _ _ hcount
          _ = colonCount cfg t := hcc.symm
  · have hcc : colonCount cfg t = t.countP (fun x => colonChar == x) := by
      simp [colonCount, hskip, colonRawCount, countOcc_single]
    calc (colonHitLines cfg t).length
        = ((splitLines t).filter (fun l => hasMatch [[colonChar]] l)).length := by
          simp only [colonHitLines, hskip, if_neg, Bool.false_eq_true,
            colonLinesAll, lineRecords]
          exact numberFrom_filter_snd_len _ 1 _
      _ ≤ ((splitLines t).map (fun l => l.countP (fun x => colonChar == x))).sum :=
          filter_len_le_sum _ _ _ hcount
      _ = colonCount cfg t := by
          rw [hcc, splitLines_countP (fun x => colonChar == x) hn hr t]

/-! ## Issue-list membership -/

theorem mem_ite_singleton {c : Prop} [Decidable c] (i x : Issue) :
    (i ∈ if c then [x] else []) ↔ i = x ∧ c := by
  split <;> simp_all

theorem ite_singleton_eq_nil {c : Prop} [Decidable c] (x : Issue) :
    (if c then [x] else ([] : List Issue)) = [] ↔ ¬c := by
  split <;> simp_all

/-- Which issues the script can append, and exactly when. -/
theorem mem_issues_iff (cfg : Config) (t : List Char) (i : Issue) :
    i ∈ issues cfg t ↔
      (i = Issue.erShi (erShiCount t) ∧ 1 < erShiCount t) ∨
      (i = Issue.niHui (niHuiCount t) ∧ 0 < niHuiCount t) ∨
      (i = Issue.colonBudget (colonCount cfg t) cfg.colonBudget ∧
        cfg.colonBudget < (colonCount cfg t : Int)) ∨
      (i = Issue.colonUsage ∧ cfg.colonExceptionsQuoteOnly = true ∧
        (colonViolations cfg t).length ≠ 0) ∨
      (i = Issue.shortParas (shortParagraphCount t) ∧ 4 ≤ shortParagraphCount t) ∨
      (i = Issue.excl (exclCount t) ∧ 2 < exclCount t) ∨
      (i = Issue.dash (dashCount t) ∧ 3 < dashCount t) ∨
      (i = Issue.roadmark (roadmarkCount t) ∧ 2 < roadmarkCount t) := by
  simp only [issues, List.mem_append, mem_ite_singleton, not_le, not_or,
    Bool.not_eq_false, or_assoc, ne_eq]

/-- The verdict passes exactly when none of the eight failure conditions
holds. -/
theorem issues_eq_nil_iff (cfg : Config) (t : List Char) :
    issues cfg t = [] ↔
      ¬(1 < erShiCount t) ∧ ¬(0 < niHuiCount t) ∧
      ¬(cfg.colonBudget < (colonCount cfg t : Int)) ∧
      ¬(cfg.colonExceptionsQuoteOnly = true ∧ (colonViolations cfg t).length ≠ 0) ∧
      ¬(4 ≤ shortParagraphCount t) ∧ ¬(2 < exclCount t) ∧
      ¬(3 < dashCount t) ∧ ¬(2 < roadmarkCount t) := by
  simp only [issues, List.append_eq_nil, ite_singleton_eq_nil, not_le, not_or,
    Bool.not_eq_false, ne_eq, and_assoc]

/-! ## Claims about the colon rule and the verdict -/

/-- C1 (counterexample): the claim says the colon rule fails exactly when
the *violation* count exceeds `ColonBudget`, and that a document with three
colons, all on exempt verb-colon-quote lines, passes the colon rule with
budget 2.  On the code the budget check uses the raw (title-adjusted) colon
count: this document has violation count 0, yet the budget failure
`colon count 3 exceeds budget 2` is raised. -/
theorem claim_C1_cex :
    (colonViolations {} (str "他说：“一。”\n他说：“二。”\n他说：“三。”")).length = 0 ∧
    colonCount {} (str "他说：“一。”\n他说：“二。”\n他说：“三。”") = 3 ∧
    Issue.colonBudget 3 2 ∈ issues {} (str "他说：“一。”\n他说：“二。”\n他说：“三。”") := by
  decide

/-- C1 (amended): the colon-budget failure is raised exactly when the raw
(title-adjusted) colon count exceeds `ColonBudget` — not the violation
count — and, independently, the distinct `non-quote colon usage detected`
failure is raised exactly when `ColonExceptionsQuoteOnly` is enabled and at
least one colon violation exists. -/
theorem claim_C1 (cfg : Config) (t : List Char) :
    (Issue.colonBudget (colonCount cfg t) cfg.colonBudget ∈ issues cfg t ↔
      cfg.colonBudget < (colonCount cfg t : Int)) ∧
    (Issue.colonUsage ∈ issues cfg t ↔
      cfg.colonExceptionsQuoteOnly = true ∧ colonViolations cfg t ≠ []) := by
  constructor
  · rw [mem_issues_iff]
    simp
  · rw [mem_issues_iff]
    simp [List.length_eq_zero]

/-- C2 (counterexample): the claim says raw colon count and violation count
are equal iff `ColonExceptionsQuoteOnly` is false.  With the flag false the
script never builds the violation list, so on a one-colon document the
violation count is 0 while the raw count is 1. -/
theorem claim_C2_cex :
    ({ colonExceptionsQuoteOnly := false } : Config).colonExceptionsQuoteOnly = false ∧
    colonCount { colonExceptionsQuoteOnly := false } (str "甲：乙") = 1 ∧
    (colonViolations { colonExceptionsQuoteOnly := false } (str "甲：乙")).length = 0 := by
  decide

/-- C2 (amended): the colon violation count never exceeds the raw
(title-adjusted) colon count, and when `ColonExceptionsQuoteOnly` is false
the violation list is empty (so equality holds then only for
colon-free documents). -/
theorem claim_C2 (cfg : Config) (t : List Char) :
    (colonViolations cfg t).length ≤ colonCount cfg t ∧
    (cfg.colonExceptionsQuoteOnly = false → colonViolations cfg t = []) := by
  constructor
  · calc (colonViolations cfg t).length ≤ (colonHitLines cfg t).length := by
          unfold colonViolations
          split
          · exact List.length_filter_le _ _
          · simp
      _ ≤ colonCount cfg t := colonHitLines_le cfg t
  · intro hflag
    simp [colonViolations, hflag]

/-- C2 (witness): the amended claim at a concrete document and a
configuration with `ColonExceptionsQuoteOnly` disabled. -/
theorem claim_C2_witness :
    (colonViolations { colonExceptionsQuoteOnly := false } (str "丙：丁")).length ≤
      colonCount { colonExceptionsQuoteOnly := false } (str "丙：丁") ∧
    colonViolations { colonExceptionsQuoteOnly := false } (str "丙：丁") = [] :=
  ⟨(claim_C2 _ _).1, (claim_C2 _ _).2 rfl⟩

/-- C3: the non-colon verdict failure conditions are exactly: 而是 count
greater than 1, 你会 count greater than 0, short-paragraph count at least 4,
exclamation count greater than 2, double em-dash count greater than 3, and
roadmark count greater than 2 — all against fixed constants — and the
verdict passes exactly when none of the eight failure conditions (these six
plus the two colon checks) holds. -/
theorem claim_C3 (cfg : Config) (t : List Char) :
    (Issue.erShi (erShiCount t) ∈ issues cfg t ↔ 1 < erShiCount t) ∧
    (Issue.niHui (niHuiCount t) ∈ issues cfg t ↔ 0 < niHuiCount t) ∧
    (Issue.shortParas (shortParagraphCount t) ∈ issues cfg t ↔
      4 ≤ shortParagraphCount t) ∧
    (Issue.excl (exclCount t) ∈ issues cfg t ↔ 2 < exclCount t) ∧
    (Issue.dash (dashCount t) ∈ issues cfg t ↔ 3 < dashCount t) ∧
    (Issue.roadmark (roadmarkCount t) ∈ issues cfg t ↔ 2 < roadmarkCount t) ∧
    (verdictPass cfg t = true ↔
      ¬(1 < erShiCount t) ∧ ¬(0 < niHuiCount t) ∧
      ¬(cfg.colonBudget < (colonCount cfg t : Int)) ∧
      ¬(cfg.colonExceptionsQuoteOnly = true ∧ colonViolations cfg t ≠ []) ∧
      ¬(4 ≤ shortParagraphCount t) ∧ ¬(2 < exclCount t) ∧
      ¬(3 < dashCount t) ∧ ¬(2 < roadmarkCount t)) := by
  refine ⟨?_, ?_, ?_, ?_, ?_, ?_, ?_⟩
  · rw [mem_issues_iff]; simp
  · rw [mem_issues_iff]; simp
  · rw [mem_issues_iff]; simp
  · rw [mem_issues_iff]; simp
  · rw [mem_issues_iff]; simp
  · rw [mem_issues_iff]; simp
  · rw [verdictPass, List.isEmpty_iff, issues_eq_nil_iff]
    simp [List.length_eq_zero]

/-- C10: the verdict and the failure-reason list depend only on the 而是,
你会, title-adjusted colon, colon-violation, short-paragraph, exclamation,
dash and roadmark counts together with `ColonBudget` and
`ColonExceptionsQuoteOnly`; in particular the bu_shi, ni, semicolon,
period, ai_roadmarks_extra, metaphor, double_adj and heading counts never
influence it. -/
theorem claim_C10 (cfg1 cfg2 : Config) (d1 d2 : List Char)
    (h1 : erShiCount d1 = erShiCount d2)
    (h2 : niHuiCount d1 = niHuiCount d2)
    (h3 : colonCount cfg1 d1 = colonCount cfg2 d2)
    (h4 : (colonViolations cfg1 d1).length = (colonViolations cfg2 d2).length)
    (h5 : shortParagraphCount d1 = shortParagraphCount d2)
    (h6 : exclCount d1 = exclCount d2)
    (h7 : dashCount d1 = dashCount d2)
    (h8 : roadmarkCount d1 = roadmarkCount d2)
    (h9 : cfg1.colonBudget = cfg2.colonBudget)
    (h10 : cfg1.colonExceptionsQuoteOnly = cfg2.colonExceptionsQuoteOnly) :
    issues cfg1 d1 = issues cfg2 d2 ∧ verdictPass cfg1 d1 = verdictPass cfg2 d2 := by
  have hiss : issues cfg1 d1 = issues cfg2 d2 := by
    unfold issues
    rw [h1, h2, h3, h4, h5, h6, h7, h8, h9, h10]
  exact ⟨hiss, by unfold verdictPass; rw [hiss]⟩

/-- C10 (witness): two documents that differ in their bu_shi, ni,
semicolon, period, metaphor, double-adjective and extra-roadmark counts but
agree on all verdict-relevant counts receive identical issue lists. -/
theorem claim_C10_witness :
    buShiCount (str "不是你；。如同而又不可否认") = 1 ∧
    buShiCount (str "平淡文字") = 0 ∧
    issues {} (str "不是你；。如同而又不可否认") = issues {} (str "平淡文字") :=
  ⟨by decide, by decide,
    (claim_C10 {} {} (str "不是你；。如同而又不可否认") (str "平淡文字")
      (by decide) (by decide) (by decide) (by decide) (by decide)
      (by decide) (by decide) (by decide) rfl rfl).1⟩

/-- C4 (evaluation at the failing input): this line carries a colon, does
not have the verb-whitespace-colon-whitespace-quote shape (`specLineExempt`
is false), yet the script's `$quoteOnlyPattern` matches it — the bare 说
buried in 说过 suffices — so it is exempted and the violation list stays
empty.  The spec's shape is a violation here; the code's ungrouped
alternation is the slip. -/
theorem claim_C4 :
    hasMatch [[colonChar]] (str "他说过要来：可是没来") = true ∧
    lineExempt (str "他说过要来：可是没来") = true ∧
    specLineExempt (str "他说过要来：可是没来") = false ∧
    colonViolations {} (str "他说过要来：可是没来") = [] := by
  decide

/-- C6: paragraph segmentation never produces a paragraph that is empty
after trimming, and the short-paragraph count is exactly the number of
paragraphs whose trimmed length is below 100 characters. -/
theorem claim_C6 (t : List Char) :
    (paragraphs t).all (fun p => decide (0 < (trim p).length)) = true ∧
    shortParagraphCount t =
      ((paragraphs t).filter (fun p => decide ((trim p).length < 100))).length := by
  constructor
  · rw [List.all_eq_true]
    intro p hp
    exact (List.mem_filter.mp hp).2
  · rw [shortParagraphCount, shortParagraphs]
    congr 1
    refine List.filter_congr ?_
    intro p hp
    have h0 := (List.mem_filter.mp hp).2
    simp only [h0, Bool.and_true]

/-- C7: the reported average paragraph length is 0 for 0 paragraphs and
otherwise is the integer rounding (ties to even) of total trimmed
characters over paragraph count; in particular it is within half a
character of the exact quotient: `|total/count - avg| ≤ 1/2`, stated
integrally as `2*total` within `count` of `2*avg*count`. -/
theorem claim_C7 (t : List Char) :
    avgParaLen t = (if paragraphCount t = 0 then 0
      else roundHalfEven (totalParaChars t) (paragraphCount t)) ∧
    (0 < paragraphCount t →
      2 * totalParaChars t ≤
        2 * avgParaLen t * paragraphCount t + paragraphCount t ∧
      2 * avgParaLen t * paragraphCount t ≤
        2 * totalParaChars t + paragraphCount t) := by
  have hmain : ∀ T C : Nat, 0 < C →
      2 * T ≤ 2 * roundHalfEven T C * C + C ∧
      2 * roundHalfEven T C * C ≤ 2 * T + C := by
    intro T C hC
    have hdm := Nat.div_add_mod T C
    have hr : T % C < C := Nat.mod_lt _ hC
    have e1 : 2 * (T / C) * C = 2 * (C * (T / C)) := by ring
    have e2 : 2 * (T / C + 1) * C = 2 * (C * (T / C)) + 2 * C := by ring
    unfold roundHalfEven
    split_ifs <;> constructor <;> omega
  rcases Nat.eq_zero_or_pos (paragraphCount t) with h | h
  · refine ⟨by simp [avgParaLen, h], fun hpos => absurd h (by omega)⟩
  · have hne : paragraphCount t ≠ 0 := by omega
    have havg : avgParaLen t = roundHalfEven (totalParaChars t) (paragraphCount t) := by
      simp [avgParaLen, h]
    refine ⟨by simp [havg, hne], fun _ => ?_⟩
    rw [havg]
    exact hmain _ _ h

/-- C7 (witness): the average-length characterization at a concrete
two-paragraph document (5 characters over 2 paragraphs, rounded to 2). -/
theorem claim_C7_witness :
    avgParaLen (str "甲乙\n\n丙丁戊") = (if paragraphCount (str "甲乙\n\n丙丁戊") = 0 then 0
      else roundHalfEven (totalParaChars (str "甲乙\n\n丙丁戊"))
        (paragraphCount (str "甲乙\n\n丙丁戊"))) ∧
    (2 * totalParaChars (str "甲乙\n\n丙丁戊") ≤
      2 * avgParaLen (str "甲乙\n\n丙丁戊") * paragraphCount (str "甲乙\n\n丙丁戊") +
        paragraphCount (str "甲乙\n\n丙丁戊") ∧
     2 * avgParaLen (str "甲乙\n\n丙丁戊") * paragraphCount (str "甲乙\n\n丙丁戊") ≤
      2 * totalParaChars (str "甲乙\n\n丙丁戊") + paragraphCount (str "甲乙\n\n丙丁戊")) :=
  ⟨(claim_C7 _).1, (claim_C7 _).2 (by decide)⟩

/-- C9: an unresolvable path aborts with the file-not-found input error and
yields no report or verdict; a readable document always yields the full
report together with the verdict, a content FAIL being carried inside a
successful run. -/
theorem claim_C9 (fs : List Char → Option (List Char)) (path : List Char)
    (cfg : Config) :
    (fs path = none →
      runLint fs path cfg = Except.error (str "File not found: " ++ path) ∧
      ∀ r, runLint fs path cfg ≠ Except.ok r) ∧
    (∀ t, fs path = some t →
      runLint fs path cfg = Except.ok (report cfg path t, issues cfg t)) := by
  refine ⟨fun h => ⟨by simp [runLint, h], fun r => by simp [runLint, h]⟩,
    fun t h => by simp [runLint, h]⟩

/-- C9 (witness): a two-path filesystem — the missing path errors, the
readable one produces the report and issue list. -/
theorem claim_C9_witness :
    runLint (fun p => if p = str "doc.txt" then some (str "你会！") else none)
        (str "missing.txt") {} =
      Except.error (str "File not found: " ++ str "missing.txt") ∧
    runLint (fun p => if p = str "doc.txt" then some (str "你会！") else none)
        (str "doc.txt") {} =
      Except.ok (report {} (str "doc.txt") (str "你会！"), issues {} (str "你会！")) :=
  ⟨((claim_C9 _ _ _).1 (by decide)).1, (claim_C9 _ _ _).2 _ (by decide)⟩

/-! ## Report-section lemmas -/

theorem filter_len_zero_iff (q : List Char → Bool) (ls : List (List Char)) :
    (ls.filter q).length = 0 ↔ ∀ l ∈ ls, q l = false := by
  induction ls with
  | nil => simp
  | cons l rest ih => by_cases hq : q l <;> simp [List.filter_cons, hq, ih]

theorem sum_map_zero_iff (f : List Char → Nat) (ls : List (List Char)) :
    (ls.map f).sum = 0 ↔ ∀ l ∈ ls, f l = 0 := by
  induction ls with
  | nil => simp
  | cons l rest ih => simp [ih, Nat.add_eq_zero]

theorem exclHitLines_nil_iff (t : List Char) :
    exclHitLines t = [] ↔ exclCount t = 0 := by
  have hn : (fun x => exclChar == x) '\n' = false := by decide
  have hr : (fun x => exclChar == x) (Char.ofNat 13) = false := by decide
  have hpt : ∀ l : List Char, hasMatch [[exclChar]] l = false ↔
      l.countP (fun x => exclChar == x) = 0 := by
    intro l
    rw [← Bool.not_eq_true, hasMatch_single_countP]
    omega
  have hlen : (exclHitLines t).length =
      ((splitLines t).filter (fun l => hasMatch [[exclChar]] l)).length := by
    unfold exclHitLines lineRecords
    exact numberFrom_filter_snd_len _ 1 _
  rw [← List.length_eq_zero, hlen, filter_len_zero_iff,
    exclCount, countOcc_single, splitLines_countP _ hn hr, sum_map_zero_iff]
  exact forall_congr' fun l => forall_congr' fun _ => hpt l

/-- C5 (counterexample): the claim says the dash and metaphor sections are
omitted exactly when their counts are zero.  A document with one double
em-dash has a nonzero dash count but no dash section (the code requires
count > 3), and its metaphor section is rendered even though the metaphor
count is zero (the code always prints the header and count line). -/
theorem claim_C5_cex :
    dashCount (str "文——字") = 1 ∧ dashSection (str "文——字") = [] ∧
    metaphorCount (str "文——字") = 0 ∧ metaphorSection (str "文——字") ≠ [] := by
  decide

/-- C5 (amended): the direct-address (er_shi|ni_hui) and colon-lines
sections are always rendered, with a `none` placeholder when they have no
hits; the exclamation and double-adjective sections are rendered exactly
when their counts are nonzero; the dash section is rendered exactly when
the dash count exceeds 3; and the metaphor section (header plus count line)
is always rendered.  The always-rendered headers appear in every report. -/
theorem claim_C5 (cfg : Config) (path t : List Char) :
    (hitLinesSection t ≠ [] ∧
      (erNiHitLines t = [] → noneLine ∈ hitLinesSection t)) ∧
    (colonLinesSection cfg t ≠ [] ∧
      (colonHitLines cfg t = [] → noneLine ∈ colonLinesSection cfg t)) ∧
    (exclSection t = [] ↔ exclCount t = 0) ∧
    (dashSection t = [] ↔ dashCount t ≤ 3) ∧
    metaphorSection t ≠ [] ∧
    (doubleAdjSection t = [] ↔ doubleAdjCount t = 0) ∧
    str "--- Hit Lines (er_shi|ni_hui) ---" ∈ report cfg path t ∧
    str "--- Colon Lines ---" ∈ report cfg path t ∧
    str "--- Metaphor Markers (rough screen) ---" ∈ report cfg path t := by
  refine ⟨⟨by simp [hitLinesSection], fun h => ?_⟩,
    ⟨by simp [colonLinesSection], fun h => ?_⟩, ?_, ?_, ?_, ?_, ?_, ?_, ?_⟩
  · simp [hitLinesSection, h]
  · simp [colonLinesSection, h]
  · rw [← exclHitLines_nil_iff]
    unfold exclSection
    split
    · simp_all [List.isEmpty_iff]
    · simp_all [List.isEmpty_iff]
  · unfold dashSection
    split
    · simp
      omega
    · simp
      omega
  · simp [metaphorSection]
  · unfold doubleAdjSection
    split
    · simp
      omega
    · simp
      omega
  · simp [report, hitLinesSection]
  · simp [report, colonLinesSection]
  · simp [report, metaphorSection]

example : erShiCount (str "而是了而是") = 2 := by decide
example : paragraphCount (str "甲\n\n乙丙") = 2 := by decide
example : splitLines (str "a\r\nb\n") = [str "a", str "b"] := by decide
example : colonViolations {} (str "他说：今天。\n见：面。") =
    [(2, str "见：面。")] := by decide
example : shortParagraphCount (str "甲\n\n乙丙") = 2 := by decide
-- the ungrouped-alternation bug: a bare 说 anywhere exempts the line
example : colonViolations {} (str "他说了一句。晚上：不见。") = [] := by decide
-- but 强调 alone does not (it needs the colon-quote tail)
example : colonViolations {} (str "他强调了一句。晚上：不见。") =
    [(1, str "他强调了一句。晚上：不见。")] := by decide
example : lineExempt (str "他强调：“好。”") = true := by decide
-- single-line file + SkipTitleLine: only the first *character* is examined
example : colonCount {skipTitleLine := true} (str "：：好") = 1 := by decide
example : colonCount {skipTitleLine := true} (str "题：目\n正：文①\n尾：声") = 2 := by decide
-- the C1 scenario document: raw colon count 3, zero violations, budget 2
example : colonCount {} (str "他说：“一。”\n他说：“二。”\n他说：“三。”") = 3 := by decide
example : (colonViolations {} (str "他说：“一。”\n他说：“二。”\n他说：“三。”")).length = 0 := by
  decide
example : issues {} (str "他说：“一。”\n他说：“二。”\n他说：“三。”") =
    [Issue.colonBudget 3 2] := by decide
-- paragraph splitting edge cases
example : paragraphs (str "a\n \n\nb") = [str "a\n ", str "b"] := by decide
example : paragraphs (str "") = [] := by decide
example : paragraphs (str "a\n\r\nb") = [str "a", str "b"] := by decide
example : paragraphs (str "a\r\rb") = [str "a\r\rb"] := by decide
example : avgParaLen (str "甲乙\n\n丙丁戊") = 2 := by decide  -- round(2.5) ties to even
example : headingCount (str "## 一\n正文## 二\n## 三") = 2 := by decide
example : splitLines (str "a\n\nb") = [str "a", str "", str "b"] := by decide

end StyleLint
